import Mathlib

/-!
Shallow embedding of the download-scheduling core of the repository:
`download_manager/downloader.py` (worker pool: per-task threads, status map,
cancel/pause/resume), `download_manager/queue_manager.py` (priority backlog and
reconciliation loop) and `download_manager/storage_optimizer.py` (filename
sanitization).  Python status strings are modelled by the inductive type `St`;
machine integers and byte counters are `Nat`; the float `progress` field is
modelled by `Rat`; task dictionaries are association lists.  All definitions
are translated from the Python source; theorems about the specified behaviour
follow at the end of the file.
-/

/-- Task states. The constructors mirror the Python status strings
`pending, downloading, paused, cancelling, cancelled, completed, failed`
used by `Downloader`, plus `queued` and `processing` used by `QueueManager`
(both components store statuses in the same string-valued field). -/
inductive St where
  | pending
  | downloading
  | paused
  | cancelling
  | cancelled
  | completed
  | failed
  | queued
  | processing
  deriving DecidableEq, Repr, Fintype

/-- Terminal downloader states, the list `['completed', 'failed', 'cancelled']`
tested by `_process_queue_loop` and `cancel_download`. -/
def terminalSt (s : St) : Bool :=
  s == .completed || s == .failed || s == .cancelled

/-- One task record of `Downloader.download_tasks` (the fields written by the
source: `status`, `error`, `progress`, `bytes_downloaded`, `total_size`;
`url`, `filepath` and `thread` are omitted as no claim mentions them). -/
structure DTask where
  status : St
  error : Option String
  progress : Rat
  bytes_downloaded : Nat
  total_size : Nat
  deriving DecidableEq, Repr

/-- Status transition of `Downloader.cancel_download` (downloader.py 218-238):
non-terminal, non-cancelling states move to `cancelling`; `cancelling` is left
alone; a terminal state is force-marked `cancelled`. -/
def cancelS (s : St) : St :=
  if s ≠ .completed ∧ s ≠ .failed ∧ s ≠ .cancelled ∧ s ≠ .cancelling then .cancelling
  else if s = .cancelling then s
  else .cancelled

/-- Status transition of `Downloader.pause_download` (downloader.py 180-196):
only `downloading` and `pending` move to `paused`. -/
def pauseS (s : St) : St :=
  if s = .downloading ∨ s = .pending then .paused else s

/-- Status transition of `Downloader.resume_download` (downloader.py 199-215):
only `paused` moves back to `pending`. -/
def resumeS (s : St) : St :=
  if s = .paused then .pending else s

/-- `cancel_download` on one task record: only the status field is written. -/
def cancelT (t : DTask) : DTask := { t with status := cancelS t.status }

/-- `pause_download` on one task record: only the status field is written. -/
def pauseT (t : DTask) : DTask := { t with status := pauseS t.status }

/-- `resume_download` on one task record: only the status field is written. -/
def resumeT (t : DTask) : DTask := { t with status := resumeS t.status }

/-- The `download_tasks` dictionary, keyed by the uuid string download id. -/
abbrev Tasks := List (String × DTask)

/-- Dictionary lookup (`download_tasks.get(download_id)`). -/
def lookupT (m : Tasks) (id : String) : Option DTask :=
  (m.find? (fun p => p.1 = id)).map (·.2)

/-- In-place mutation of one entry (`task['status'] = ...`): replace the first
binding of `id`. -/
def setT : Tasks → String → DTask → Tasks
  | [], _, _ => []
  | p :: ps, id, t => if p.1 = id then (id, t) :: ps else p :: setT ps id t

/-- `Downloader.cancel_download` on the task map: unknown ids are ignored
(only a message is printed); otherwise the status transition `cancelT`
is applied to the stored record. -/
def cancel_download (m : Tasks) (id : String) : Tasks :=
  match lookupT m id with
  | some t => setT m id (cancelT t)
  | none => m

/-- `Downloader.pause_download` on the task map. -/
def pause_download (m : Tasks) (id : String) : Tasks :=
  match lookupT m id with
  | some t => setT m id (pauseT t)
  | none => m

/-- `Downloader.resume_download` on the task map. -/
def resume_download (m : Tasks) (id : String) : Tasks :=
  match lookupT m id with
  | some t => setT m id (resumeT t)
  | none => m

/-- `Downloader.get_status`: returns a copy of the stored fields, or `none`
for an unknown id; it never mutates the map. -/
def get_status (m : Tasks) (id : String) : Option DTask :=
  lookupT m id

/-!
Small-step machine for one transfer thread (`Downloader._download_file`,
downloader.py 17-134) interleaved with external `cancel`, `pause` and `resume`
calls.  The thread body is cut at the lock boundaries of the source: each
`TStep` is one atomic lock-protected section (or one exception raised by a
collaborator), and between any two thread steps an arbitrary sequence of
external operations may run.  Nothing in the repository ever deletes an entry
from `download_tasks`, so the guard `if download_id in self.download_tasks`
is always true and the task record is kept directly in the state.
-/

/-- One atomic section of `_download_file`:
* `checkInitial` - the preliminary lock block (lines 22-30);
* `prepareFail` - an `IOError` from `os.makedirs` or `open` (handler 109-116);
* `headers` - the lock block after response headers arrive (lines 42-56);
* `headersErr` - a `RequestException` from `requests.get` (handler 118-124);
* `chunkCheck` - the top-of-loop cancellation checkpoint (lines 62-72);
* `chunkWrite` - writing one chunk and publishing progress (lines 74-93);
* `chunkErr` - a `RequestException` while iterating (handler 118-124);
* `unexpectedErr` - any other exception (handler 126-134);
* `finish` - the post-loop finalization block (lines 96-107). -/
inductive TStep where
  | checkInitial
  | prepareFail (msg : String)
  | headers (total : Nat)
  | headersErr (msg : String)
  | chunkCheck
  | chunkWrite (n : Nat)
  | chunkErr (msg : String)
  | unexpectedErr (msg : String)
  | finish
  deriving DecidableEq, Repr

/-- State of one running transfer: the task record, the thread-local variables
`bytes_downloaded` and `total_size` of `_download_file`, whether the thread
has returned (`done`), and whether
`storage_optimizer.cleanup_incomplete_download` has been invoked. -/
structure DState where
  task : DTask
  threadBytes : Nat
  threadTotal : Nat
  done : Bool
  cleaned : Bool
  deriving DecidableEq, Repr

/-- Status-level effect of one thread step, extracted from `_download_file`:
every write the thread makes to `task['status']`. -/
def execS (t : TStep) (s : St) : St :=
  match t with
  | .checkInitial => if s = .pending then .downloading else s
  | .prepareFail _ => .failed
  | .headers _ => if s = .cancelling then .cancelled else s
  | .headersErr _ => .failed
  | .chunkCheck => if s = .cancelling then .cancelled else s
  | .chunkWrite _ => if s = .cancelling then .cancelled else s
  | .chunkErr _ => .failed
  | .unexpectedErr _ => .failed
  | .finish => if s = .downloading then .completed
               else if s = .cancelling then .cancelled else s

/-- Execute one thread step.  If the thread already returned the step does
nothing (the remaining script never runs in the source). -/
def execT (s : DState) (t : TStep) : DState :=
  if s.done then s else
  match t with
  | .checkInitial =>
      if s.task.status = .pending then
        { s with task := { s.task with status := .downloading } }
      else s
  | .prepareFail msg =>
      { s with
          task := { s.task with
                      status := .failed,
                      error := some ("File/Directory error: " ++ msg) },
          done := true }
  | .headers n =>
      if s.task.status = .cancelling then
        { s with task := { s.task with status := .cancelled },
                 threadTotal := n, cleaned := true, done := true }
      else
        { s with
            task := { s.task with
                        total_size := n, progress := 0,
                        bytes_downloaded := 0 },
            threadTotal := n }
  | .headersErr msg =>
      { s with task := { s.task with status := .failed, error := some msg },
               cleaned := true, done := true }
  | .chunkCheck =>
      if s.task.status = .cancelling then
        { s with task := { s.task with status := .cancelled },
                 cleaned := true, done := true }
      else s
  | .chunkWrite n =>
      let nb := s.threadBytes + n
      if s.task.status = .cancelling then
        { s with task := { s.task with status := .cancelled },
                 threadBytes := nb, cleaned := true, done := true }
      else
        { s with
            threadBytes := nb,
            task := { s.task with
                        bytes_downloaded := nb,
                        progress :=
                          if s.threadTotal > 0 then
                            ((nb : Rat) / (s.threadTotal : Rat)) * 100
                          else s.task.progress } }
  | .chunkErr msg =>
      { s with task := { s.task with status := .failed, error := some msg },
               cleaned := true, done := true }
  | .unexpectedErr msg =>
      { s with
          task := { s.task with
                      status := .failed,
                      error := some ("Unexpected error during download: " ++ msg) },
          cleaned := if s.threadBytes > 0 then true else s.cleaned,
          done := true }
  | .finish =>
      if s.task.status = .downloading then
        let t1 := if s.threadTotal > 0 ∧ s.threadBytes = s.threadTotal then
                    { s.task with progress := 100 }
                  else s.task
        { s with task := { t1 with status := .completed }, done := true }
      else if s.task.status = .cancelling then
        { s with task := { s.task with status := .cancelled },
                 cleaned := true, done := true }
      else { s with done := true }

/-- How the transfer behaves, as produced by the collaborators:
the directory/open step may raise, `requests.get` may raise, or headers with a
declared `content-length` arrive followed by chunks whose iteration ends
normally, raises a `RequestException`, or raises something unexpected. -/
inductive TailEv where
  | completed
  | transport (msg : String)
  | unexpected (msg : String)
  deriving DecidableEq, Repr

/-- Abstract outcome of the collaborators for one transfer. -/
inductive Outcome where
  | prepFail (msg : String)
  | reqFail (msg : String)
  | openFail (total : Nat) (msg : String)
  | stream (total : Nat) (chunks : List Nat) (tail : TailEv)
  deriving DecidableEq, Repr

/-- The loop body steps for a list of received chunks: each iteration is the
checkpoint followed by the chunk write. -/
def loopProg (chunks : List Nat) : List TStep :=
  chunks.flatMap (fun n => [TStep.chunkCheck, TStep.chunkWrite n])

/-- The final step of the stream. -/
def tailProg : TailEv → List TStep
  | .completed => [.finish]
  | .transport msg => [.chunkErr msg]
  | .unexpected msg => [.unexpectedErr msg]

/-- The linear program the transfer thread executes for a given outcome,
following the control flow of `_download_file`. -/
def mkProg : Outcome → List TStep
  | .prepFail msg => [.checkInitial, .prepareFail msg]
  | .reqFail msg => [.checkInitial, .headersErr msg]
  | .openFail t msg => [.checkInitial, .headers t, .prepareFail msg]
  | .stream t chunks tail =>
      .checkInitial :: .headers t :: (loopProg chunks ++ tailProg tail)

/-- Machine state: the transfer state plus the remaining thread program. -/
structure MState where
  d : DState
  prog : List TStep
  deriving DecidableEq, Repr

/-- An event of the interleaved execution: the thread performs its next step,
or an external caller invokes `cancel_download`, `pause_download` or
`resume_download` on the running task. -/
inductive Ev where
  | tick
  | cancel
  | pause
  | resume
  deriving DecidableEq, Repr

/-- One interleaving step. -/
def stepM (m : MState) : Ev → MState
  | .tick =>
      match m.prog with
      | [] => m
      | t :: r => { d := execT m.d t, prog := r }
  | .cancel => { m with d := { m.d with task := cancelT m.d.task } }
  | .pause => { m with d := { m.d with task := pauseT m.d.task } }
  | .resume => { m with d := { m.d with task := resumeT m.d.task } }

/-- Task state right after `start_download` returned (downloader.py 137-161):
the record is created with zeroed counters and the status is set to
`downloading` before the thread starts. -/
def initD : DState :=
  { task := { status := .downloading, error := none, progress := 0,
              bytes_downloaded := 0, total_size := 0 },
    threadBytes := 0, threadTotal := 0, done := false, cleaned := false }

/-- Initial machine state for an outcome. -/
def initM (o : Outcome) : MState := { d := initD, prog := mkProg o }

/-- Run an interleaving from the initial state. -/
def runM (o : Outcome) (evs : List Ev) : MState :=
  evs.foldl stepM (initM o)

/-- Run an interleaving from an intermediate state. -/
def runMFrom (m : MState) (evs : List Ev) : MState :=
  evs.foldl stepM m

/-- Thread steps that model a raised exception. -/
def isErrStep : TStep → Bool
  | .prepareFail _ => true
  | .headersErr _ => true
  | .chunkErr _ => true
  | .unexpectedErr _ => true
  | _ => false

/-- Whether the remaining program contains an exception step. -/
def hasErrStep (p : List TStep) : Bool := p.any isErrStep

/-- Whether the remaining program still contains the headers step. -/
def hasHeaders (p : List TStep) : Bool :=
  p.any fun t => match t with | .headers _ => true | _ => false

/-!
Queue manager (`queue_manager.py`).  A backlog entry carries the fields of the
task dictionaries in `pending_queue`; `time_added` is the `time.time()` stamp
taken under the queue lock at admission, modelled by a logical clock that
advances at every admission (successive `time.time()` readings under one lock
are non-decreasing; the model makes them strictly increasing, which a stable
sort treats identically to equal stamps).  The qm ids `qm_1, qm_2, ...` are
modelled by their counter value.  Downloader ids (uuid strings) are modelled
as numbers supplied by the environment at dispatch time.
-/

structure QEntry where
  qm_id : Nat
  url : String
  filepath : String
  priority : Int
  time_added : Nat
  status : St
  deriving DecidableEq, Repr

/-- Queue order: the key `(x['priority'], x['time_added'])`, non-strict. -/
def qle (a b : QEntry) : Prop :=
  a.priority < b.priority ∨ (a.priority = b.priority ∧ a.time_added ≤ b.time_added)

/-- Queue order, strict version. -/
def qlt (a b : QEntry) : Prop :=
  a.priority < b.priority ∨ (a.priority = b.priority ∧ a.time_added < b.time_added)

instance (a b : QEntry) : Decidable (qle a b) := by unfold qle; infer_instance

instance (a b : QEntry) : Decidable (qlt a b) := by unfold qlt; infer_instance

/-- Insert an entry into a sorted backlog, after all strictly smaller keys and
after equal keys: together with `sortQ` this implements the stable
`pending_queue.sort(key=lambda x: (x['priority'], x['time_added']))`. -/
def insS (x : QEntry) : List QEntry → List QEntry
  | [] => [x]
  | y :: ys => if qlt y x then y :: insS x ys else x :: y :: ys

/-- Stable sort by `(priority, time_added)` (Python list.sort is stable). -/
def sortQ : List QEntry → List QEntry
  | [] => []
  | y :: ys => insS y (sortQ ys)

/-- State of the `QueueManager`: the sorted backlog, the ordered dictionary
`active_downloads` (downloader id to entry), the qm id counter, the logical
admission clock, and the sequence of qm ids handed to
`downloader.start_download` (the observable dispatch order). -/
structure QMState where
  pending_queue : List QEntry
  active_downloads : List (Nat × QEntry)
  qm_counter : Nat
  clock : Nat
  dispatched : List Nat
  deriving DecidableEq, Repr

/-- The empty manager right after construction. -/
def initQM : QMState :=
  { pending_queue := [], active_downloads := [], qm_counter := 0,
    clock := 0, dispatched := [] }

/-- `QueueManager.add_download` (queue_manager.py 25-40): build the entry in
state `queued`, append it and re-sort by `(priority, time_added)`; returns the
new qm id together with the new state. -/
def add_download (st : QMState) (url filepath : String) (priority : Int) :
    Nat × QMState :=
  let qm := st.qm_counter + 1
  let e : QEntry :=
    { qm_id := qm, url := url, filepath := filepath, priority := priority,
      time_added := st.clock, status := .queued }
  (qm, { st with
           pending_queue := sortQ (st.pending_queue ++ [e]),
           qm_counter := qm,
           clock := st.clock + 1 })

/-- The downloader id associated with a qm id in `active_downloads`
(the search loop of `remove_download`, queue_manager.py 53-57). -/
def findActiveDl (st : QMState) (qid : Nat) : Option Nat :=
  (st.active_downloads.find? (fun p => p.2.qm_id = qid)).map (·.1)

/-- `QueueManager.remove_download` (queue_manager.py 42-66): returns the
success flag, the new state, and the downloader id on which
`downloader.cancel_download` was invoked (if any). -/
def remove_download (st : QMState) (qid : Nat) :
    Bool × QMState × Option Nat :=
  let p2 := st.pending_queue.filter (fun t => t.qm_id ≠ qid)
  if p2.length ≠ st.pending_queue.length then
    (true, { st with pending_queue := p2 }, none)
  else
    match findActiveDl st qid with
    | some dl => (true, st, some dl)
    | none => (false, st, none)

/-- Python dict assignment `active_downloads[dl] = e`: replace an existing
binding in place, otherwise append (insertion order is preserved). -/
def dictInsert (l : List (Nat × QEntry)) (k : Nat) (v : QEntry) :
    List (Nat × QEntry) :=
  if l.any (fun p => p.1 = k) then
    l.map (fun p => if p.1 = k then (k, v) else p)
  else l ++ [(k, v)]

/-- Phases 1 and 2 of one reconciliation iteration (queue_manager.py 72-94):
copy each live status into its entry, and drop every entry whose downloader
id is unknown to the pool or reports a terminal status. -/
def reconcileActive (get_st : Nat → Option St) (l : List (Nat × QEntry)) :
    List (Nat × QEntry) :=
  let finished := l.filterMap (fun p =>
    match get_st p.1 with
    | some s => if terminalSt s then some p.1 else none
    | none => some p.1)
  (l.map (fun p =>
    match get_st p.1 with
    | some s => (p.1, { p.2 with status := s })
    | none => p)).filter (fun p => ¬ p.1 ∈ finished)

/-- One iteration of `QueueManager._process_queue_loop` (queue_manager.py
70-123).  `nw` is `downloader.num_workers`; `get_st` gives the status field of
`downloader.get_status` for each downloader id (`none` when the id is
unknown); `fresh` is the id returned by `downloader.start_download` (`none`
models the falsy re-queue branch).  Phase 1 copies live statuses into the
active entries and collects the ids to retire; phase 2 deletes them; phase 3
dispatches at most one queued entry if capacity allows. -/
def process_queue_iter (nw : Nat) (get_st : Nat → Option St)
    (fresh : Option Nat) (st : QMState) : QMState :=
  let active1 := reconcileActive get_st st.active_downloads
  match st.pending_queue with
  | [] => { st with active_downloads := active1 }
  | e :: rest =>
      if active1.length < nw then
        match fresh with
        | some dl =>
            { st with
                pending_queue := rest,
                active_downloads := dictInsert active1 dl { e with status := .processing },
                dispatched := st.dispatched ++ [e.qm_id] }
        | none =>
            { st with
                pending_queue := sortQ ({ e with status := .queued } :: rest),
                active_downloads := active1 }
      else { st with active_downloads := active1 }

/-- An externally triggered queue-manager operation. -/
inductive QMOp where
  | add (url filepath : String) (priority : Int)
  | remove (qid : Nat)
  | reconcile (get_st : Nat → Option St) (fresh : Option Nat)

/-- Apply one operation. -/
def stepQM (nw : Nat) (st : QMState) : QMOp → QMState
  | .add u f p => (add_download st u f p).2
  | .remove q => (remove_download st q).2.1
  | .reconcile g fr => process_queue_iter nw g fr st

/-- Run a sequence of operations from the empty manager. -/
def runQM (nw : Nat) (ops : List QMOp) : QMState :=
  ops.foldl (stepQM nw) initQM

/-!
Filename sanitization (`storage_optimizer.py`, `suggest_filepath`, lines
64-103).  Filenames are modelled as lists of characters; `str.isalnum` is
modelled by ASCII alphanumerics (`Char.isAlphanum`), which covers every
character the claims exercise.  The directory part of the returned path is
not modelled: the claims are about the filename component.
-/

/-- Characters kept by the sanitizer: `c.isalnum() or c in [. _ -]`. -/
def allowedChar (c : Char) : Bool :=
  c.isAlphanum || c == '.' || c == '_' || c == '-'

/-- Characters removed from both ends by `.strip(in "_.- ")`. -/
def isStripChar (c : Char) : Bool :=
  c == '_' || c == '.' || c == '-' || c == ' '

/-- The generator expression: keep allowed characters, replace others by
an underscore. -/
def sanitizeJoin (l : List Char) : List Char :=
  l.map (fun c => if allowedChar c then c else '_')

/-- Python `str.strip` over a fixed character set: drop matching characters
from the front, then from the back. -/
def stripChars (l : List Char) : List Char :=
  (((l.dropWhile isStripChar).reverse.dropWhile isStripChar)).reverse

/-- Sanitize and strip, substituting the default when nothing remains
(storage_optimizer.py 90-93). -/
def sanitizeCore (l : List Char) : List Char :=
  if stripChars (sanitizeJoin l) = [] then "sanitized_download_file".toList
  else stripChars (sanitizeJoin l)

/-- Index of the last dot, if any. -/
def lastDotIdx (l : List Char) : Option Nat :=
  l.enum.foldl (fun acc p => if p.2 == '.' then some p.1 else acc) none

/-- `os.path.splitext` on a bare filename (no separators): split at the last
dot unless every character before it is itself a dot. -/
def splitext (l : List Char) : List Char × List Char :=
  match lastDotIdx l with
  | none => (l, [])
  | some i =>
      if (l.take i).all (fun c => c == '.') then (l, [])
      else (l.take i, l.drop i)

/-- Python slicing `l[:k]` for a possibly negative bound. -/
def pySlice (l : List Char) (k : Int) : List Char :=
  if k < 0 then l.take (((l.length : Int) + k).toNat) else l.take k.toNat

/-- The bounded-length step (storage_optimizer.py 95-101) with
`max_len = 200`: `name_part[:max_len - ext_len - 1] + ext_part`. -/
def truncateName (s : List Char) : List Char :=
  if s.length > 200 then
    let pr := splitext s
    pySlice pr.1 (200 - (pr.2.length : Int) - 1) ++ pr.2
  else s

/-- The full sanitization-and-truncation step applied to a filename. -/
def sanitizeFilename (l : List Char) : List Char :=
  truncateName (sanitizeCore l)

/-- Deriving a filename from the url (storage_optimizer.py 74-85):
text before the first question mark, after the last slash; the default
`downloaded_file` when the segment is empty or ends with a dot, or when
whitespace-stripping empties it. -/
def nameFromUrl (url : String) : List Char :=
  let seg := ((url.toList.takeWhile (fun c => !(c == '?'))).reverse.takeWhile
                (fun c => !(c == '/'))).reverse
  if seg = [] ∨ seg.getLast? = some '.' then "downloaded_file".toList
  else
    let stripped := ((seg.dropWhile Char.isWhitespace).reverse.dropWhile
                       Char.isWhitespace).reverse
    if stripped = [] then "downloaded_file".toList else stripped

/-- The filename argument actually sanitized: the explicit one when given and
non-empty (Python truthiness of `if not filename`), else the url-derived
name. -/
def chooseName (url : String) (fname : Option String) : List Char :=
  match fname with
  | some f => if f.toList = [] then nameFromUrl url else f.toList
  | none => nameFromUrl url

/-- The filename component of `StorageOptimizer.suggest_filepath`. -/
def suggest_filepath_name (url : String) (fname : Option String) : List Char :=
  sanitizeFilename (chooseName url fname)

/-!
Concrete inputs used by the scenario theorems, witnesses and counterexamples.
-/

/-- Three equal-priority admissions followed by one reconciliation cycle
against a pool of capacity two (the scenario of the specification). -/
def c1ops : List QMOp :=
  [.add "http://x/a" "a.bin" 0, .add "http://x/b" "b.bin" 0,
   .add "http://x/c" "c.bin" 0,
   .reconcile (fun _ => some .downloading) (some 101)]

/-- Admissions with priorities 2, 0, 1 followed by three reconciliation
cycles with enough capacity; active tasks keep reporting `downloading`. -/
def c5ops : List QMOp :=
  [.add "u1" "f1" 2, .add "u2" "f2" 0, .add "u3" "f3" 1,
   .reconcile (fun _ => some .downloading) (some 101),
   .reconcile (fun _ => some .downloading) (some 102),
   .reconcile (fun _ => some .downloading) (some 103)]

/-- A transfer whose stream delivers one 5-byte chunk and then raises a
transport error. -/
def o2 : Outcome := .stream 100 [5] (.transport "boom")

/-- Interleaving: the thread reaches the write of the first chunk, then a
caller cancels. -/
def evs2a : List Ev := [.tick, .tick, .tick, .tick, .cancel]

/-- The same interleaving, after which the transport error fires. -/
def evs2b : List Ev := evs2a ++ [.tick]

/-- A 100-byte transfer delivered as one 100-byte chunk. -/
def o6 : Outcome := .stream 100 [100] .completed

/-- Run `o6` up to the final progress write, before finalization. -/
def evs6a : List Ev := [.tick, .tick, .tick, .tick]

/-- Run `o6` to completion. -/
def evs6b : List Ev := evs6a ++ [.tick]

/-- A filename whose extension is longer than the truncation bound:
`a.` followed by two hundred times `b`. -/
def w9 : List Char := 'a' :: '.' :: List.replicate 200 'b'

/-- A task map holding one completed task. -/
def m3 : Tasks :=
  [("d1", { status := .completed, error := none, progress := 100,
            bytes_downloaded := 5, total_size := 5 })]

/-- A task map holding a completed, a paused and a downloading task. -/
def m10 : Tasks :=
  [("d1", { status := .completed, error := none, progress := 100,
            bytes_downloaded := 5, total_size := 5 }),
   ("d2", { status := .paused, error := none, progress := 0,
            bytes_downloaded := 0, total_size := 0 }),
   ("d3", { status := .downloading, error := none, progress := 0,
            bytes_downloaded := 0, total_size := 0 })]

/-- A manager state with one queued and one active entry. -/
def st8 : QMState :=
  { pending_queue :=
      [{ qm_id := 1, url := "u1", filepath := "f1", priority := 0,
         time_added := 0, status := .queued }],
    active_downloads :=
      [(7, { qm_id := 2, url := "u2", filepath := "f2", priority := 0,
             time_added := 1, status := .processing })],
    qm_counter := 2, clock := 2, dispatched := [2] }

/-!
Lemmas about the task dictionary.
-/

theorem setT_lookup_self (m : Tasks) (id : String) (t : DTask)
    (h : lookupT m id = some t) : setT m id t = m := by
  induction m with
  | nil => simp [setT]
  | cons p ps ih =>
      obtain ⟨k, v⟩ := p
      by_cases hp : k = id
      · subst hp
        simp [lookupT, List.find?] at h
        simp [setT, h]
      · simp only [lookupT, List.find?, hp, decide_eq_true_eq, if_neg,
          decide_False] at h
        simp only [setT, if_neg hp]
        exact congrArg (List.cons (k, v)) (ih (by simpa [lookupT] using h))

theorem lookupT_setT (m : Tasks) (id : String) (t t2 : DTask)
    (h : lookupT m id = some t) : lookupT (setT m id t2) id = some t2 := by
  induction m with
  | nil => simp [lookupT] at h
  | cons p ps ih =>
      obtain ⟨k, v⟩ := p
      by_cases hp : k = id
      · subst hp
        simp [setT, lookupT, List.find?]
      · simp only [lookupT, List.find?, hp, decide_eq_true_eq, if_neg,
          decide_False] at h
        simp only [setT, if_neg hp]
        simpa [lookupT, List.find?, hp] using ih (by simpa [lookupT] using h)

theorem pauseT_eq_self (t : DTask) (h1 : t.status ≠ .downloading)
    (h2 : t.status ≠ .pending) : pauseT t = t := by
  simp [pauseT, pauseS, h1, h2]

theorem resumeT_eq_self (t : DTask) (h : t.status ≠ .paused) : resumeT t = t := by
  simp [resumeT, resumeS, h]

theorem cancelT_terminal (t : DTask)
    (h : t.status = .completed ∨ t.status = .failed ∨ t.status = .cancelled) :
    cancelT t = { t with status := .cancelled } := by
  rcases h with h | h | h <;> simp [cancelT, cancelS, h]

/-- Claim C3, counterexample: the claim states that no operation changes the
state of a task already in a terminal state, but `cancel_download` applied to
a `completed` task rewrites its state to `cancelled` (downloader.py 236). -/
theorem C3_counterexample :
    (get_status m3 "d1").map DTask.status = some .completed ∧
    (get_status (cancel_download m3 "d1") "d1").map DTask.status =
      some .cancelled ∧
    St.cancelled ≠ St.completed := by decide

/-- Claim C3, amended: for a task in a terminal state (`completed`, `failed`
or `cancelled`), `pause_download`, `resume_download` and `get_status` leave
the task map unchanged; `cancel_download` leaves an already-`cancelled` task
unchanged but force-marks a `completed` or `failed` task as `cancelled`
(which is again terminal). -/
theorem C3_amended (m : Tasks) (id : String) (t : DTask)
    (hl : get_status m id = some t)
    (ht : t.status = .completed ∨ t.status = .failed ∨ t.status = .cancelled) :
    pause_download m id = m ∧
    resume_download m id = m ∧
    get_status m id = some t ∧
    get_status (cancel_download m id) id = some { t with status := .cancelled } ∧
    (t.status = .cancelled → cancel_download m id = m) := by
  have hl' : lookupT m id = some t := hl
  have hpause : pause_download m id = m := by
    have h1 : t.status ≠ .downloading := by rcases ht with h | h | h <;> simp [h]
    have h2 : t.status ≠ .pending := by rcases ht with h | h | h <;> simp [h]
    simp only [pause_download, hl']
    rw [pauseT_eq_self t h1 h2]
    exact setT_lookup_self m id t hl'
  have hres : resume_download m id = m := by
    have h1 : t.status ≠ .paused := by rcases ht with h | h | h <;> simp [h]
    simp only [resume_download, hl']
    rw [resumeT_eq_self t h1]
    exact setT_lookup_self m id t hl'
  refine ⟨hpause, hres, hl, ?_, ?_⟩
  · simp only [get_status, cancel_download, hl']
    rw [cancelT_terminal t ht]
    exact lookupT_setT m id t _ hl'
  · intro hc
    simp only [cancel_download, hl']
    rw [cancelT_terminal t ht]
    have : ({ t with status := St.cancelled } : DTask) = t := by
      cases t; simp_all
    rw [this]
    exact setT_lookup_self m id t hl'

/-- Claim C3, witness for the amended theorem at a concrete terminal task. -/
theorem C3_witness :
    pause_download m3 "d1" = m3 ∧ resume_download m3 "d1" = m3 ∧
    (get_status (cancel_download m3 "d1") "d1").map DTask.status =
      some .cancelled := by
  have h := C3_amended m3 "d1"
    { status := .completed, error := none, progress := 100,
      bytes_downloaded := 5, total_size := 5 } (by decide) (by decide)
  exact ⟨h.1, h.2.1, by rw [h.2.2.2.1]; rfl⟩

/-- Claim C10: `pause_download` and `resume_download` called with an unknown
id, or on a task whose state does not permit the transition (`pause` outside
`pending`/`downloading`, `resume` outside `paused`), return normally and
leave the whole task map unchanged. -/
theorem C10_pause_resume_noop (m : Tasks) (id : String) :
    (lookupT m id = none →
      pause_download m id = m ∧ resume_download m id = m) ∧
    (∀ t, lookupT m id = some t → t.status ≠ .pending →
      t.status ≠ .downloading → pause_download m id = m) ∧
    (∀ t, lookupT m id = some t → t.status ≠ .paused →
      resume_download m id = m) := by
  refine ⟨fun hn => ?_, fun t hl h1 h2 => ?_, fun t hl h1 => ?_⟩
  · constructor <;> simp [pause_download, resume_download, hn]
  · simp only [pause_download, hl]
    rw [pauseT_eq_self t h2 h1]
    exact setT_lookup_self m id t hl
  · simp only [resume_download, hl]
    rw [resumeT_eq_self t h1]
    exact setT_lookup_self m id t hl

/-- Claim C10, witness: an unknown id, a pause on a `paused` task, and a
resume on a `downloading` task, all leave the concrete map `m10` unchanged. -/
theorem C10_witness :
    pause_download m10 "nope" = m10 ∧ resume_download m10 "nope" = m10 ∧
    pause_download m10 "d2" = m10 ∧ resume_download m10 "d3" = m10 := by
  have h0 := (C10_pause_resume_noop m10 "nope").1 (by decide)
  have h2 := (C10_pause_resume_noop m10 "d2").2.1
    { status := .paused, error := none, progress := 0,
      bytes_downloaded := 0, total_size := 0 } (by decide) (by decide) (by decide)
  have h3 := (C10_pause_resume_noop m10 "d3").2.2
    { status := .downloading, error := none, progress := 0,
      bytes_downloaded := 0, total_size := 0 } (by decide) (by decide)
  exact ⟨h0.1, h0.2, h2, h3⟩

/-!
Status behaviour of the interleaving machine.
-/

theorem execT_status (d : DState) (t : TStep) :
    (execT d t).task.status =
      if d.done then d.task.status else execS t d.task.status := by
  by_cases hd : d.done
  · simp [execT, hd]
  · cases t <;> simp [execT, execS, hd] <;> split_ifs <;> rfl

theorem stepM_prog (m : MState) (e : Ev) :
    (stepM m e).prog = m.prog ∨
      ∃ t r, m.prog = t :: r ∧ (stepM m e).prog = r := by
  cases e with
  | tick =>
      cases hp : m.prog with
      | nil => left; simp [stepM, hp]
      | cons t r => right; exact ⟨t, r, rfl, by simp [stepM, hp]⟩
  | cancel => left; rfl
  | pause => left; rfl
  | resume => left; rfl

theorem execS_preserves_ccf (t : TStep) (s : St)
    (h : s = .cancelling ∨ s = .cancelled ∨ s = .failed) :
    execS t s = .cancelling ∨ execS t s = .cancelled ∨ execS t s = .failed := by
  rcases h with h | h | h <;> subst h <;> cases t <;> simp [execS]

theorem execS_preserves_cc (t : TStep) (he : isErrStep t = false) (s : St)
    (h : s = .cancelling ∨ s = .cancelled) :
    execS t s = .cancelling ∨ execS t s = .cancelled := by
  cases t <;> rcases h with h | h <;> subst h <;> simp [execS] <;>
    simp [isErrStep] at he

theorem stepM_preserves_ccf (m : MState) (e : Ev)
    (h : m.d.task.status = .cancelling ∨ m.d.task.status = .cancelled ∨
         m.d.task.status = .failed) :
    (stepM m e).d.task.status = .cancelling ∨
    (stepM m e).d.task.status = .cancelled ∨
    (stepM m e).d.task.status = .failed := by
  cases e with
  | tick =>
      cases hp : m.prog with
      | nil => simpa [stepM, hp] using h
      | cons t r =>
          simp only [stepM, hp]
          rw [execT_status]
          split_ifs
          · exact h
          · exact execS_preserves_ccf t _ h
  | cancel =>
      have : (stepM m .cancel).d.task.status = cancelS m.d.task.status := rfl
      rw [this]
      rcases h with h | h | h <;> rw [h] <;> decide
  | pause =>
      have : (stepM m .pause).d.task.status = pauseS m.d.task.status := rfl
      rw [this]
      rcases h with h | h | h <;> rw [h] <;> decide
  | resume =>
      have : (stepM m .resume).d.task.status = resumeS m.d.task.status := rfl
      rw [this]
      rcases h with h | h | h <;> rw [h] <;> decide

theorem stepM_preserves_cc (m : MState) (e : Ev)
    (h : m.d.task.status = .cancelling ∨ m.d.task.status = .cancelled)
    (he : hasErrStep m.prog = false) :
    ((stepM m e).d.task.status = .cancelling ∨
     (stepM m e).d.task.status = .cancelled) ∧
    hasErrStep (stepM m e).prog = false := by
  have hprog : hasErrStep (stepM m e).prog = false := by
    rcases stepM_prog m e with hp | ⟨t, r, hp, hq⟩
    · rw [hp]; exact he
    · rw [hq]
      rw [hp] at he
      simp only [hasErrStep, List.any_cons, Bool.or_eq_false_iff] at he
      exact he.2
  refine ⟨?_, hprog⟩
  cases e with
  | tick =>
      cases hp : m.prog with
      | nil => simpa [stepM, hp] using h
      | cons t r =>
          have ht : isErrStep t = false := by
            rw [hp] at he
            simp only [hasErrStep, List.any_cons, Bool.or_eq_false_iff] at he
            exact he.1
          simp only [stepM, hp]
          rw [execT_status]
          split_ifs
          · exact h
          · exact execS_preserves_cc t ht _ h
  | cancel =>
      have : (stepM m .cancel).d.task.status = cancelS m.d.task.status := rfl
      rw [this]
      rcases h with h | h <;> rw [h] <;> decide
  | pause =>
      have : (stepM m .pause).d.task.status = pauseS m.d.task.status := rfl
      rw [this]
      rcases h with h | h <;> rw [h] <;> decide
  | resume =>
      have : (stepM m .resume).d.task.status = resumeS m.d.task.status := rfl
      rw [this]
      rcases h with h | h <;> rw [h] <;> decide

theorem runMFrom_preserves_ccf (evs : List Ev) :
    ∀ m : MState,
      (m.d.task.status = .cancelling ∨ m.d.task.status = .cancelled ∨
       m.d.task.status = .failed) →
      ((runMFrom m evs).d.task.status = .cancelling ∨
       (runMFrom m evs).d.task.status = .cancelled ∨
       (runMFrom m evs).d.task.status = .failed) := by
  induction evs with
  | nil => intro m h; exact h
  | cons e evs ih =>
      intro m h
      exact ih (stepM m e) (stepM_preserves_ccf m e h)

theorem runMFrom_preserves_cc (evs : List Ev) :
    ∀ m : MState,
      (m.d.task.status = .cancelling ∨ m.d.task.status = .cancelled) →
      hasErrStep m.prog = false →
      ((runMFrom m evs).d.task.status = .cancelling ∨
       (runMFrom m evs).d.task.status = .cancelled) := by
  induction evs with
  | nil => intro m h _; exact h
  | cons e evs ih =>
      intro m h he
      have hs := stepM_preserves_cc m e h he
      exact ih (stepM m e) hs.1 hs.2

/-- Claim C2, counterexample: cancellation is not monotone under every
interleaving.  Running the transfer `o2` to the point after writing its first
chunk, then cancelling, puts the task in `cancelling`; the transport error
that fires next is handled by the unconditional `except` block, which
finalizes the task to `failed`, not `cancelled` (downloader.py 118-124 writes
`failed` without re-checking for `cancelling`). -/
theorem C2_counterexample :
    (runM o2 evs2a).d.task.status = .cancelling ∧
    evs2b = evs2a ++ [Ev.tick] ∧
    (runM o2 evs2b).d.task.status = .failed ∧
    St.failed ≠ St.cancelled := by decide

/-- Claim C2, amended: once a task is in `cancelling`, under every further
interleaving of thread steps and external calls its state can only be
`cancelling`, `cancelled` or `failed` - in particular it never becomes
`completed` (a stream completion after the cancel request still finalizes to
`cancelled`); and if no exception step remains in the thread program, the
task can only be `cancelling` or `cancelled`, so it finalizes to `cancelled`.
A transport or unexpected error arriving after the cancel request finalizes
the task to `failed` instead. -/
theorem C2_amended (o : Outcome) (evs1 evs2 : List Ev)
    (h : (runM o evs1).d.task.status = .cancelling) :
    ((runMFrom (runM o evs1) evs2).d.task.status = .cancelling ∨
     (runMFrom (runM o evs1) evs2).d.task.status = .cancelled ∨
     (runMFrom (runM o evs1) evs2).d.task.status = .failed) ∧
    (runMFrom (runM o evs1) evs2).d.task.status ≠ .completed ∧
    (hasErrStep (runM o evs1).prog = false →
      ((runMFrom (runM o evs1) evs2).d.task.status = .cancelling ∨
       (runMFrom (runM o evs1) evs2).d.task.status = .cancelled)) := by
  have h1 := runMFrom_preserves_ccf evs2 (runM o evs1) (Or.inl h)
  refine ⟨h1, ?_, fun he => runMFrom_preserves_cc evs2 (runM o evs1) (Or.inl h) he⟩
  rcases h1 with h1 | h1 | h1 <;> rw [h1] <;> decide

/-- Claim C2, witness: the amended theorem applied to a transfer that is
cancelled right away and then allowed to run one checkpoint. -/
theorem C2_witness :
    ((runMFrom (runM o2 [Ev.cancel]) [Ev.tick]).d.task.status = .cancelling ∨
     (runMFrom (runM o2 [Ev.cancel]) [Ev.tick]).d.task.status = .cancelled ∨
     (runMFrom (runM o2 [Ev.cancel]) [Ev.tick]).d.task.status = .failed) ∧
    (runMFrom (runM o2 [Ev.cancel]) [Ev.tick]).d.task.status ≠ .completed ∧
    (hasErrStep (runM o2 [Ev.cancel]).prog = false →
      ((runMFrom (runM o2 [Ev.cancel]) [Ev.tick]).d.task.status = .cancelling ∨
       (runMFrom (runM o2 [Ev.cancel]) [Ev.tick]).d.task.status = .cancelled)) :=
  C2_amended o2 [Ev.cancel] [Ev.tick] (by decide)

/-!
Progress-formula invariant of the interleaving machine.  The well-formedness
facts carried through the induction: the headers step can only stand at the
front of the remaining program (possibly behind the initial check) and occurs
at most once, so the thread-local byte counter is still zero when the headers
lock section runs.
-/

theorem wsh_tail (t : TStep) (r : List TStep)
    (h : hasHeaders (t :: r) = true →
      (∃ n r2, t :: r = .headers n :: r2 ∧ hasHeaders r2 = false) ∨
      (∃ n r2, t :: r = .checkInitial :: .headers n :: r2 ∧
        hasHeaders r2 = false)) :
    hasHeaders r = true →
      (∃ n r2, r = .headers n :: r2 ∧ hasHeaders r2 = false) ∨
      (∃ n r2, r = .checkInitial :: .headers n :: r2 ∧ hasHeaders r2 = false) := by
  intro hr
  have hcons : hasHeaders (t :: r) = true := by
    unfold hasHeaders at hr ⊢
    rw [List.any_cons, hr, Bool.or_true]
  rcases h hcons with ⟨n, r2, heq, hr2⟩ | ⟨n, r2, heq, hr2⟩
  · obtain ⟨rfl, rfl⟩ : t = .headers n ∧ r = r2 := by
      exact ⟨(List.cons.injEq _ _ _ _ ▸ heq).1, (List.cons.injEq _ _ _ _ ▸ heq).2⟩
    rw [hr2] at hr
    exact absurd hr (by simp)
  · obtain ⟨rfl, rfl⟩ : t = .checkInitial ∧ r = .headers n :: r2 := by
      exact ⟨(List.cons.injEq _ _ _ _ ▸ heq).1, (List.cons.injEq _ _ _ _ ▸ heq).2⟩
    exact Or.inl ⟨n, r2, rfl, hr2⟩

theorem wsh_not_head (t : TStep) (r : List TStep)
    (h : hasHeaders (t :: r) = true →
      (∃ n r2, t :: r = .headers n :: r2 ∧ hasHeaders r2 = false) ∨
      (∃ n r2, t :: r = .checkInitial :: .headers n :: r2 ∧
        hasHeaders r2 = false))
    (hne1 : ∀ n, t ≠ .headers n) (hne2 : t ≠ .checkInitial) :
    hasHeaders r = false := by
  by_cases hr : hasHeaders r = true
  · have hcons : hasHeaders (t :: r) = true := by
      unfold hasHeaders at hr ⊢
      rw [List.any_cons, hr, Bool.or_true]
    rcases h hcons with ⟨n, r2, heq, _⟩ | ⟨n, r2, heq, _⟩
    · exact absurd (List.cons.injEq _ _ _ _ ▸ heq).1 (hne1 n)
    · exact absurd (List.cons.injEq _ _ _ _ ▸ heq).1 hne2
  · exact Bool.eq_false_iff.mpr (fun hc => hr (by rw [hc]))

theorem hasHeaders_cons_of_tail (t : TStep) (r : List TStep)
    (hh : hasHeaders r = true) : hasHeaders (t :: r) = true := by
  unfold hasHeaders at hh ⊢
  rw [List.any_cons, hh, Bool.or_true]

theorem stepM_preserves_progress (m : MState) (e : Ev)
    (h1 : m.d.task.total_size > 0 →
      m.d.task.progress =
        100 * (m.d.task.bytes_downloaded : Rat) / (m.d.task.total_size : Rat))
    (h2 : m.d.done = false →
      m.d.task.total_size = m.d.threadTotal ∧
      m.d.task.bytes_downloaded = m.d.threadBytes ∧
      (hasHeaders m.prog = true → m.d.threadBytes = 0))
    (h3 : hasHeaders m.prog = true →
      (∃ n r, m.prog = .headers n :: r ∧ hasHeaders r = false) ∨
      (∃ n r, m.prog = .checkInitial :: .headers n :: r ∧
        hasHeaders r = false)) :
    ((stepM m e).d.task.total_size > 0 →
      (stepM m e).d.task.progress =
        100 * ((stepM m e).d.task.bytes_downloaded : Rat) /
          ((stepM m e).d.task.total_size : Rat)) ∧
    ((stepM m e).d.done = false →
      (stepM m e).d.task.total_size = (stepM m e).d.threadTotal ∧
      (stepM m e).d.task.bytes_downloaded = (stepM m e).d.threadBytes ∧
      (hasHeaders (stepM m e).prog = true → (stepM m e).d.threadBytes = 0)) ∧
    (hasHeaders (stepM m e).prog = true →
      (∃ n r, (stepM m e).prog = .headers n :: r ∧ hasHeaders r = false) ∨
      (∃ n r, (stepM m e).prog = .checkInitial :: .headers n :: r ∧
        hasHeaders r = false)) := by
  cases e with
  | cancel => exact ⟨h1, h2, h3⟩
  | pause => exact ⟨h1, h2, h3⟩
  | resume => exact ⟨h1, h2, h3⟩
  | tick =>
      cases hp : m.prog with
      | nil =>
          simp only [stepM, hp]
          refine ⟨h1, fun hd => ?_, fun hh => by simp [hasHeaders] at hh⟩
          obtain ⟨a, b, _⟩ := h2 hd
          exact ⟨a, b, fun hh => by simp [hasHeaders] at hh⟩
      | cons t r =>
          have h3' : hasHeaders (t :: r) = true →
              (∃ n r2, t :: r = .headers n :: r2 ∧ hasHeaders r2 = false) ∨
              (∃ n r2, t :: r = .checkInitial :: .headers n :: r2 ∧
                hasHeaders r2 = false) := hp ▸ h3
          simp only [stepM, hp]
          by_cases hd : m.d.done = true
          · have hde : execT m.d t = m.d := by simp [execT, hd]
            rw [hde]
            exact ⟨h1, fun hdf => absurd hd (by simp [hdf]),
              wsh_tail t r h3'⟩
          · have hd' : m.d.done = false := by simpa using hd
            obtain ⟨hpost1, hpost2, hhb⟩ := h2 (by simpa using hd)
            cases t with
            | checkInitial =>
                by_cases hs : m.d.task.status = .pending <;>
                  simp only [execT, hd', Bool.false_eq_true, if_false, hs,
                    if_true, if_false] <;>
                  refine ⟨h1, fun _ => ⟨hpost1, hpost2, fun hh =>
                    hhb (hp ▸ hasHeaders_cons_of_tail _ r hh)⟩,
                    wsh_tail _ r h3'⟩
            | headers n =>
                have hz : m.d.threadBytes = 0 := by
                  apply hhb
                  rw [hp]
                  unfold hasHeaders
                  rw [List.any_cons]
                  rfl
                by_cases hs : m.d.task.status = .cancelling
                · simp only [execT, hd', Bool.false_eq_true, if_false, hs,
                    if_true]
                  exact ⟨h1, fun hdf => by simp at hdf, wsh_tail _ r h3'⟩
                · simp only [execT, hd', Bool.false_eq_true, if_false, hs,
                    if_true, if_false]
                  refine ⟨fun _ => by simp, fun _ => ⟨by trivial, hz.symm, fun _ => hz⟩,
                    wsh_tail _ r h3'⟩
            | prepareFail msg =>
                simp only [execT, hd', Bool.false_eq_true, if_false]
                exact ⟨h1, fun hdf => by simp at hdf, wsh_tail _ r h3'⟩
            | headersErr msg =>
                simp only [execT, hd', Bool.false_eq_true, if_false]
                exact ⟨h1, fun hdf => by simp at hdf, wsh_tail _ r h3'⟩
            | chunkErr msg =>
                simp only [execT, hd', Bool.false_eq_true, if_false]
                exact ⟨h1, fun hdf => by simp at hdf, wsh_tail _ r h3'⟩
            | unexpectedErr msg =>
                simp only [execT, hd', Bool.false_eq_true, if_false]
                exact ⟨h1, fun hdf => by simp at hdf, wsh_tail _ r h3'⟩
            | chunkCheck =>
                have hnoh : hasHeaders r = false :=
                  wsh_not_head _ r h3' (fun n h => by cases h) (by intro h; cases h)
                by_cases hs : m.d.task.status = .cancelling
                · simp only [execT, hd', Bool.false_eq_true, if_false, hs,
                    if_true]
                  exact ⟨h1, fun hdf => by simp at hdf, wsh_tail _ r h3'⟩
                · simp only [execT, hd', Bool.false_eq_true, if_false, hs,
                    if_true, if_false]
                  exact ⟨h1, fun _ => ⟨hpost1, hpost2, fun hh => by
                    rw [hnoh] at hh; cases hh⟩, wsh_tail _ r h3'⟩
            | chunkWrite k =>
                have hnoh : hasHeaders r = false :=
                  wsh_not_head _ r h3' (fun n h => by cases h) (by intro h; cases h)
                by_cases hs : m.d.task.status = .cancelling
                · simp only [execT, hd', Bool.false_eq_true, if_false, hs,
                    if_true]
                  exact ⟨h1, fun hdf => by simp at hdf, wsh_tail _ r h3'⟩
                · simp only [execT, hd', Bool.false_eq_true, if_false, hs,
                    if_true, if_false]
                  refine ⟨fun hpos => ?_, fun _ => ⟨hpost1, by trivial, fun hh => by
                    rw [hnoh] at hh; cases hh⟩, wsh_tail _ r h3'⟩
                  by_cases htt : m.d.threadTotal > 0
                  · simp only [htt, if_true, if_pos]
                    rw [hpost1]
                    ring
                  · exfalso
                    rw [hpost1] at hpos
                    omega
            | finish =>
                by_cases hs : m.d.task.status = .downloading
                · simp only [execT, hd', Bool.false_eq_true, if_false, hs,
                    if_true]
                  by_cases hc : m.d.threadTotal > 0 ∧ m.d.threadBytes = m.d.threadTotal
                  · simp only [hc, if_true, if_pos]
                    refine ⟨fun hpos => ?_, fun hdf => by simp at hdf,
                      wsh_tail _ r h3'⟩
                    have hb : m.d.task.bytes_downloaded = m.d.task.total_size := by
                      rw [hpost2, hc.2, ← hpost1]
                    have hz : (m.d.task.total_size : Rat) ≠ 0 := by
                      have : m.d.task.total_size > 0 := by rw [hpost1]; exact hc.1
                      exact_mod_cast Nat.pos_iff_ne_zero.mp this
                    rw [hb]
                    field_simp
                  · simp only [hc, if_false, if_neg]
                    exact ⟨h1, fun hdf => by simp at hdf, wsh_tail _ r h3'⟩
                · by_cases hs2 : m.d.task.status = .cancelling
                  · simp only [execT, hd', Bool.false_eq_true, if_false, hs,
                      if_false, hs2, if_true]
                    exact ⟨h1, fun hdf => by simp at hdf, wsh_tail _ r h3'⟩
                  · simp only [execT, hd', Bool.false_eq_true, if_false, hs,
                      if_false, hs2]
                    exact ⟨h1, fun hdf => by simp at hdf, wsh_tail _ r h3'⟩

theorem hasHeaders_tailProg (tl : TailEv) : hasHeaders (tailProg tl) = false := by
  cases tl <;> rfl

theorem hasHeaders_loopProg (cs : List Nat) : hasHeaders (loopProg cs) = false := by
  induction cs with
  | nil => rfl
  | cons c cs ih =>
      unfold loopProg at ih ⊢
      unfold hasHeaders at ih ⊢
      simp only [List.flatMap_cons, List.any_append, List.any_cons, List.any_nil]
      simp only [ih, Bool.or_false]

theorem hasHeaders_append_false (l1 l2 : List TStep)
    (h1 : hasHeaders l1 = false) (h2 : hasHeaders l2 = false) :
    hasHeaders (l1 ++ l2) = false := by
  unfold hasHeaders at h1 h2 ⊢
  rw [List.any_append, h1, h2]
  rfl

theorem initM_inv (o : Outcome) :
    ((initM o).d.task.total_size > 0 →
      (initM o).d.task.progress =
        100 * ((initM o).d.task.bytes_downloaded : Rat) /
          ((initM o).d.task.total_size : Rat)) ∧
    ((initM o).d.done = false →
      (initM o).d.task.total_size = (initM o).d.threadTotal ∧
      (initM o).d.task.bytes_downloaded = (initM o).d.threadBytes ∧
      (hasHeaders (initM o).prog = true → (initM o).d.threadBytes = 0)) ∧
    (hasHeaders (initM o).prog = true →
      (∃ n r, (initM o).prog = .headers n :: r ∧ hasHeaders r = false) ∨
      (∃ n r, (initM o).prog = .checkInitial :: .headers n :: r ∧
        hasHeaders r = false)) := by
  refine ⟨fun h => by simp [initM, initD] at h, fun _ => ⟨rfl, rfl, fun _ => rfl⟩, ?_⟩
  intro hh
  cases o with
  | prepFail msg => exact absurd hh (by simp [initM, mkProg, hasHeaders])
  | reqFail msg => exact absurd hh (by simp [initM, mkProg, hasHeaders])
  | openFail t msg =>
      right
      exact ⟨t, [.prepareFail msg], rfl, by simp [hasHeaders]⟩
  | stream t cs tl =>
      right
      exact ⟨t, loopProg cs ++ tailProg tl, rfl,
        hasHeaders_append_false _ _ (hasHeaders_loopProg cs) (hasHeaders_tailProg tl)⟩

theorem runMFrom_preserves_progress (evs : List Ev) :
    ∀ m : MState,
    (m.d.task.total_size > 0 →
      m.d.task.progress =
        100 * (m.d.task.bytes_downloaded : Rat) / (m.d.task.total_size : Rat)) →
    (m.d.done = false →
      m.d.task.total_size = m.d.threadTotal ∧
      m.d.task.bytes_downloaded = m.d.threadBytes ∧
      (hasHeaders m.prog = true → m.d.threadBytes = 0)) →
    (hasHeaders m.prog = true →
      (∃ n r, m.prog = .headers n :: r ∧ hasHeaders r = false) ∨
      (∃ n r, m.prog = .checkInitial :: .headers n :: r ∧
        hasHeaders r = false)) →
    ((runMFrom m evs).d.task.total_size > 0 →
      (runMFrom m evs).d.task.progress =
        100 * ((runMFrom m evs).d.task.bytes_downloaded : Rat) /
          ((runMFrom m evs).d.task.total_size : Rat)) := by
  induction evs with
  | nil => intro m h1 _ _; exact h1
  | cons e evs ih =>
      intro m h1 h2 h3
      obtain ⟨g1, g2, g3⟩ := stepM_preserves_progress m e h1 h2 h3
      exact ih (stepM m e) g1 g2 g3

/-- Claim C6, counterexample: the claim states that `progressPercent = 100`
holds exactly when the task is `Completed` with all bytes transferred; but a
status snapshot taken after the final chunk write and before the finalization
lock section shows `progress = 100` with the task still `downloading`
(downloader.py 87-90 publishes the final progress while the status is
still `downloading`). -/
theorem C6_counterexample :
    (runM o6 evs6a).d.task.total_size = 100 ∧
    (runM o6 evs6a).d.task.bytes_downloaded = 100 ∧
    (runM o6 evs6a).d.task.progress = 100 ∧
    (runM o6 evs6a).d.task.status = .downloading ∧
    St.downloading ≠ St.completed := by
  refine ⟨by decide, by decide, ?_, by decide, by decide⟩
  simp [runM, o6, evs6a, initM, initD, mkProg, loopProg, tailProg, stepM, execT]

/-- Claim C6, amended: at every observation point of every interleaved
execution, a task with `total_size > 0` has
`progress = 100 * bytes_downloaded / total_size`, and a `completed` task with
`bytes_downloaded = total_size` has `progress = 100`; but `progress = 100`
does not imply the task is `completed` (the final snapshot before
finalization already shows it while still `downloading`). -/
theorem C6_amended (o : Outcome) (evs : List Ev)
    (hpos : 0 < (runM o evs).d.task.total_size) :
    (runM o evs).d.task.progress =
      100 * ((runM o evs).d.task.bytes_downloaded : Rat) /
        ((runM o evs).d.task.total_size : Rat) ∧
    ((runM o evs).d.task.status = .completed ∧
     (runM o evs).d.task.bytes_downloaded = (runM o evs).d.task.total_size →
      (runM o evs).d.task.progress = 100) := by
  obtain ⟨i1, i2, i3⟩ := initM_inv o
  have h2 : (runM o evs).d.task.progress =
      100 * ((runM o evs).d.task.bytes_downloaded : Rat) /
        ((runM o evs).d.task.total_size : Rat) :=
    runMFrom_preserves_progress evs (initM o) i1 i2 i3 hpos
  refine ⟨h2, fun hc => ?_⟩
  rw [h2, hc.2]
  have hz : ((runM o evs).d.task.total_size : Rat) ≠ 0 := by
    exact_mod_cast Nat.pos_iff_ne_zero.mp hpos
  field_simp

/-- Claim C6, witness: the amended theorem evaluated on the completed
100-byte transfer. -/
theorem C6_witness :
    0 < (runM o6 evs6b).d.task.total_size ∧
    (runM o6 evs6b).d.task.progress =
      100 * ((runM o6 evs6b).d.task.bytes_downloaded : Rat) /
        ((runM o6 evs6b).d.task.total_size : Rat) :=
  ⟨by decide, (C6_amended o6 evs6b (by decide)).1⟩

/-- Claim C7: whenever the transfer thread is still live and its next step is
a raised exception - destination preparation (`IOError`), transport
(`RequestException`, at the request or while streaming), or unexpected - the
handler finalizes the task to `failed` and stores a human-readable message in
its error field, whatever the current task state.  The machine functions are
total: no exception value propagates to any caller; failures are observable
only through the task record returned by `get_status`. -/
theorem C7_error_failed (d : DState) (p : List TStep) (msg : String)
    (hd : d.done = false) :
    ((stepM ⟨d, .prepareFail msg :: p⟩ .tick).d.task.status = .failed ∧
     (stepM ⟨d, .prepareFail msg :: p⟩ .tick).d.task.error =
       some ("File/Directory error: " ++ msg)) ∧
    ((stepM ⟨d, .headersErr msg :: p⟩ .tick).d.task.status = .failed ∧
     (stepM ⟨d, .headersErr msg :: p⟩ .tick).d.task.error = some msg) ∧
    ((stepM ⟨d, .chunkErr msg :: p⟩ .tick).d.task.status = .failed ∧
     (stepM ⟨d, .chunkErr msg :: p⟩ .tick).d.task.error = some msg) ∧
    ((stepM ⟨d, .unexpectedErr msg :: p⟩ .tick).d.task.status = .failed ∧
     (stepM ⟨d, .unexpectedErr msg :: p⟩ .tick).d.task.error =
       some ("Unexpected error during download: " ++ msg)) := by
  refine ⟨⟨?_, ?_⟩, ⟨?_, ?_⟩, ⟨?_, ?_⟩, ⟨?_, ?_⟩⟩ <;> simp [stepM, execT, hd]

/-- Claim C7, witness: the freshly started transfer hit by each error kind. -/
theorem C7_witness :
    ((stepM ⟨initD, [TStep.prepareFail "boom"]⟩ .tick).d.task.status = .failed ∧
     (stepM ⟨initD, [TStep.prepareFail "boom"]⟩ .tick).d.task.error =
       some ("File/Directory error: " ++ "boom")) ∧
    ((stepM ⟨initD, [TStep.headersErr "boom"]⟩ .tick).d.task.status = .failed ∧
     (stepM ⟨initD, [TStep.headersErr "boom"]⟩ .tick).d.task.error = some "boom") ∧
    ((stepM ⟨initD, [TStep.chunkErr "boom"]⟩ .tick).d.task.status = .failed ∧
     (stepM ⟨initD, [TStep.chunkErr "boom"]⟩ .tick).d.task.error = some "boom") ∧
    ((stepM ⟨initD, [TStep.unexpectedErr "boom"]⟩ .tick).d.task.status = .failed ∧
     (stepM ⟨initD, [TStep.unexpectedErr "boom"]⟩ .tick).d.task.error =
       some ("Unexpected error during download: " ++ "boom")) :=
  C7_error_failed initD [] "boom" (by decide)

/-!
Ordering lemmas for the backlog sort.
-/

theorem qle_of_qlt (a b : QEntry) (h : qlt a b) : qle a b := by
  unfold qlt at h
  unfold qle
  omega

theorem qle_of_not_qlt (a b : QEntry) (h : ¬ qlt b a) : qle a b := by
  unfold qlt at h
  unfold qle
  omega

theorem qle_trans (a b c : QEntry) (h1 : qle a b) (h2 : qle b c) : qle a c := by
  unfold qle at h1 h2 ⊢
  omega

theorem insS_perm (x : QEntry) (l : List QEntry) : List.Perm (insS x l) (x :: l) := by
  induction l with
  | nil => exact List.Perm.refl _
  | cons y ys ih =>
      unfold insS
      split
      · exact ((ih.cons y).trans (List.Perm.swap x y ys))
      · exact List.Perm.refl _

theorem insS_sorted (x : QEntry) (l : List QEntry) (h : l.Pairwise qle) :
    (insS x l).Pairwise qle := by
  induction l with
  | nil => simp [insS]
  | cons y ys ih =>
      rw [List.pairwise_cons] at h
      obtain ⟨hy, hys⟩ := h
      unfold insS
      split
      case isTrue h1 =>
        rw [List.pairwise_cons]
        refine ⟨fun z hz => ?_, ih hys⟩
        rcases List.mem_cons.mp ((insS_perm x ys).mem_iff.mp hz) with rfl | hzys
        · exact qle_of_qlt y z h1
        · exact hy z hzys
      case isFalse h1 =>
        rw [List.pairwise_cons]
        refine ⟨fun z hz => ?_, List.pairwise_cons.mpr ⟨hy, hys⟩⟩
        rcases List.mem_cons.mp hz with rfl | hzys
        · exact qle_of_not_qlt x z h1
        · exact qle_trans x y z (qle_of_not_qlt x y h1) (hy z hzys)

theorem sortQ_perm (l : List QEntry) : List.Perm (sortQ l) l := by
  induction l with
  | nil => exact List.Perm.refl _
  | cons x xs ih => exact (insS_perm x (sortQ xs)).trans (ih.cons x)

theorem sortQ_sorted (l : List QEntry) : (sortQ l).Pairwise qle := by
  induction l with
  | nil => simp [sortQ]
  | cons x xs ih => exact insS_sorted x (sortQ xs) ih

theorem dictInsert_length_le (l : List (Nat × QEntry)) (k : Nat) (v : QEntry) :
    (dictInsert l k v).length ≤ l.length + 1 := by
  unfold dictInsert
  split
  · rw [List.length_map]; omega
  · rw [List.length_append]; simp

theorem stepQM_active_le (nw : Nat) (st : QMState) (op : QMOp)
    (h : st.active_downloads.length ≤ nw) :
    (stepQM nw st op).active_downloads.length ≤ nw := by
  cases op with
  | add u f p => exact h
  | remove q =>
      show (remove_download st q).2.1.active_downloads.length ≤ nw
      by_cases hc : (st.pending_queue.filter
          (fun t => t.qm_id ≠ q)).length ≠ st.pending_queue.length
      · simp only [remove_download]
        rw [if_pos hc]
        exact h
      · simp only [remove_download]
        rw [if_neg hc]
        cases hf : findActiveDl st q <;> exact h
  | reconcile g fr =>
      show (process_queue_iter nw g fr st).active_downloads.length ≤ nw
      have hbase : (reconcileActive g st.active_downloads).length ≤
          st.active_downloads.length := by
        unfold reconcileActive
        refine le_trans (List.length_filter_le _ _) ?_
        rw [List.length_map]
      cases hpq : st.pending_queue with
      | nil =>
          simp only [process_queue_iter, hpq]
          exact le_trans hbase h
      | cons e rest =>
          simp only [process_queue_iter, hpq]
          split
          case isTrue hlt =>
            cases fr with
            | some dl =>
                refine le_trans (dictInsert_length_le _ _ _) ?_
                omega
            | none => exact le_trans hbase h
          case isFalse hlt => exact le_trans hbase h

/-- Claim C4: after any sequence of admissions, removals and reconciliation
cycles, the queue manager holds at most `num_workers` active entries.  The
dispatch step only runs when the post-retirement active set is strictly below
capacity and adds a single entry (queue_manager.py 98-113), so the bound
holds at every observation point, in particular after every reconciliation
cycle. -/
theorem C4_capacity (nw : Nat) (ops : List QMOp) :
    (runQM nw ops).active_downloads.length ≤ nw := by
  have h : ∀ st : QMState, st.active_downloads.length ≤ nw →
      (ops.foldl (stepQM nw) st).active_downloads.length ≤ nw := by
    induction ops with
    | nil => exact fun st hst => hst
    | cons op ops ih =>
        exact fun st hst => ih (stepQM nw st op) (stepQM_active_le nw st op hst)
  exact h initQM (by simp [initQM])

theorem filter_length_lt_of_mem (l : List QEntry) (qid : Nat)
    (h : ∃ e ∈ l, e.qm_id = qid) :
    (l.filter (fun t => t.qm_id ≠ qid)).length < l.length := by
  induction l with
  | nil => simp at h
  | cons e es ih =>
      by_cases he : e.qm_id = qid
      · simp only [List.filter_cons, he]
        simp only [ne_eq, not_true_eq_false, decide_False, List.length_cons]
        exact Nat.lt_succ_of_le (List.length_filter_le _ _)
      · simp only [List.filter_cons]
        simp only [ne_eq, he, not_false_eq_true, decide_True, List.length_cons]
        have h2 : ∃ x ∈ es, x.qm_id = qid := by
          rcases h with ⟨x, hx, hxq⟩
          rcases List.mem_cons.mp hx with rfl | hxs
          · exact absurd hxq he
          · exact ⟨x, hxs, hxq⟩
        exact Nat.succ_lt_succ (ih h2)

theorem filter_eq_self_of_not_mem (l : List QEntry) (qid : Nat)
    (h : ∀ e ∈ l, e.qm_id ≠ qid) :
    l.filter (fun t => t.qm_id ≠ qid) = l := by
  induction l with
  | nil => rfl
  | cons e es ih =>
      simp only [List.filter_cons]
      have he : e.qm_id ≠ qid := h e (List.mem_cons_self e es)
      simp only [ne_eq, he, not_false_eq_true, decide_True, if_true,
        List.cons.injEq, true_and]
      exact ih (fun x hx => h x (List.mem_cons_of_mem e hx))

/-- Claim C8: `remove_download` deletes a still-queued entry from the backlog
and returns success; for an entry already handed to the pool it returns
success, issues `cancel_download` on the associated downloader id and leaves
both sets untouched at that moment; for an id unknown to both sets it
returns the failure value `false` (no exception). -/
theorem C8_remove_cases (st : QMState) (qid : Nat) :
    ((∃ e ∈ st.pending_queue, e.qm_id = qid) →
      (remove_download st qid).1 = true ∧
      (remove_download st qid).2.1.pending_queue =
        st.pending_queue.filter (fun t => t.qm_id ≠ qid) ∧
      (remove_download st qid).2.1.active_downloads = st.active_downloads ∧
      (remove_download st qid).2.2 = none) ∧
    ((¬ ∃ e ∈ st.pending_queue, e.qm_id = qid) → ∀ dl,
      findActiveDl st qid = some dl →
      remove_download st qid = (true, st, some dl)) ∧
    ((¬ ∃ e ∈ st.pending_queue, e.qm_id = qid) →
      findActiveDl st qid = none →
      remove_download st qid = (false, st, none)) := by
  refine ⟨fun h => ?_, fun hno dl hf => ?_, fun hno hf => ?_⟩
  · have hne : (st.pending_queue.filter (fun t => t.qm_id ≠ qid)).length ≠
        st.pending_queue.length :=
      Nat.ne_of_lt (filter_length_lt_of_mem _ _ h)
    simp only [remove_download]
    rw [if_pos hne]
    exact ⟨rfl, rfl, rfl, rfl⟩
  · have heq : st.pending_queue.filter (fun t => t.qm_id ≠ qid) =
        st.pending_queue := by
      refine filter_eq_self_of_not_mem _ _ (fun e he hq => hno ⟨e, he, hq⟩)
    have hne : ¬((st.pending_queue.filter (fun t => t.qm_id ≠ qid)).length ≠
        st.pending_queue.length) := by rw [heq]; simp
    simp only [remove_download]
    rw [if_neg hne, hf]
  · have heq : st.pending_queue.filter (fun t => t.qm_id ≠ qid) =
        st.pending_queue := by
      refine filter_eq_self_of_not_mem _ _ (fun e he hq => hno ⟨e, he, hq⟩)
    have hne : ¬((st.pending_queue.filter (fun t => t.qm_id ≠ qid)).length ≠
        st.pending_queue.length) := by rw [heq]; simp
    simp only [remove_download]
    rw [if_neg hne, hf]

/-- Claim C8, witness: the three cases on the concrete state `st8` - a queued
entry (qm id 1), an active entry (qm id 2, downloader id 7), and an unknown
id. -/
theorem C8_witness :
    ((remove_download st8 1).1 = true ∧
     (remove_download st8 1).2.1.pending_queue =
       st8.pending_queue.filter (fun t => t.qm_id ≠ 1) ∧
     (remove_download st8 1).2.1.active_downloads = st8.active_downloads ∧
     (remove_download st8 1).2.2 = none) ∧
    remove_download st8 2 = (true, st8, some 7) ∧
    remove_download st8 99 = (false, st8, none) :=
  ⟨(C8_remove_cases st8 1).1 (by decide),
   (C8_remove_cases st8 2).2.1 (by decide) 7 (by decide),
   (C8_remove_cases st8 99).2.2 (by decide) (by decide)⟩

/-- Claim C1, evaluation at the failing input: with capacity 2 and three
equal-priority entries a, b, c admitted in that order, a single iteration of
the reconciliation loop promotes only entry a (qm id 1) - entries b and c
(qm ids 2 and 3) are still queued.  The dispatch step of
`_process_queue_loop` (queue_manager.py 96-119) is an `if`, not the
specified `while`: it submits at most one entry per iteration. -/
theorem C1_code_eval :
    (runQM 2 c1ops).active_downloads.map (fun p => p.2.qm_id) = [1] ∧
    (runQM 2 c1ops).active_downloads.length = 1 ∧
    (runQM 2 c1ops).pending_queue.map (fun e => e.qm_id) = [2, 3] ∧
    (runQM 2 c1ops).pending_queue.map (fun e => e.status) =
      [.queued, .queued] ∧
    (runQM 2 c1ops).dispatched = [1] := by decide

theorem dictInsert_mem (l : List (Nat × QEntry)) (k : Nat) (v : QEntry)
    (p : Nat × QEntry) (hp : p ∈ dictInsert l k v) : p ∈ l ∨ p = (k, v) := by
  unfold dictInsert at hp
  split at hp
  · obtain ⟨q, hq, hfq⟩ := List.mem_map.mp hp
    by_cases hk : q.1 = k
    · rw [if_pos hk] at hfq
      exact Or.inr hfq.symm
    · rw [if_neg hk] at hfq
      exact Or.inl (hfq ▸ hq)
  · rcases List.mem_append.mp hp with h | h
    · exact Or.inl h
    · exact Or.inr (List.mem_singleton.mp h)

theorem timeNe_symm : Symmetric (fun a b : QEntry => a.time_added ≠ b.time_added) :=
  fun _ _ h => h.symm

theorem reconcileActive_time (g : Nat → Option St) (l : List (Nat × QEntry))
    (p : Nat × QEntry) (hp : p ∈ reconcileActive g l) :
    ∃ q ∈ l, p.2.time_added = q.2.time_added := by
  unfold reconcileActive at hp
  obtain ⟨q, hq, hfq⟩ := List.mem_map.mp (List.mem_of_mem_filter hp)
  refine ⟨q, hq, ?_⟩
  cases hg : g q.1 <;> rw [hg] at hfq <;> rw [← hfq]

theorem stepQM_preserves_order (nw : Nat) (st : QMState) (op : QMOp)
    (h1 : st.pending_queue.Pairwise qle)
    (h2 : st.pending_queue.Pairwise (fun a b => a.time_added ≠ b.time_added))
    (h3 : ∀ e ∈ st.pending_queue, e.time_added < st.clock)
    (h4 : ∀ p ∈ st.active_downloads, p.2.time_added < st.clock) :
    (stepQM nw st op).pending_queue.Pairwise qle ∧
    (stepQM nw st op).pending_queue.Pairwise
      (fun a b => a.time_added ≠ b.time_added) ∧
    (∀ e ∈ (stepQM nw st op).pending_queue,
      e.time_added < (stepQM nw st op).clock) ∧
    (∀ p ∈ (stepQM nw st op).active_downloads,
      p.2.time_added < (stepQM nw st op).clock) := by
  cases op with
  | add u f pr =>
      have hstep : stepQM nw st (.add u f pr) =
          { st with
              pending_queue := sortQ (st.pending_queue ++
                [{ qm_id := st.qm_counter + 1, url := u, filepath := f,
                   priority := pr, time_added := st.clock, status := .queued }]),
              qm_counter := st.qm_counter + 1,
              clock := st.clock + 1 } := rfl
      rw [hstep]
      dsimp only
      refine ⟨sortQ_sorted _, ?_, ?_, fun p hp => Nat.lt_succ_of_lt (h4 p hp)⟩
      · refine (List.Perm.pairwise_iff (fun hab => timeNe_symm hab)
          (sortQ_perm _)).mpr ?_
        refine List.pairwise_append.mpr ⟨h2, List.pairwise_singleton _ _,
          fun a ha b hb => ?_⟩
        rw [List.mem_singleton.mp hb]
        exact Nat.ne_of_lt (h3 a ha)
      · intro e he
        rcases List.mem_append.mp ((sortQ_perm _).mem_iff.mp he) with h | h
        · exact Nat.lt_succ_of_lt (h3 e h)
        · rw [List.mem_singleton.mp h]
          exact Nat.lt_succ_self _
  | remove q =>
      by_cases hc : (st.pending_queue.filter
          (fun t => t.qm_id ≠ q)).length ≠ st.pending_queue.length
      · have hstep : stepQM nw st (.remove q) =
            { st with pending_queue :=
                st.pending_queue.filter (fun t => t.qm_id ≠ q) } := by
          show (remove_download st q).2.1 = _
          simp only [remove_download]
          rw [if_pos hc]
        rw [hstep]
        dsimp only
        exact ⟨h1.sublist (List.filter_sublist _),
          h2.sublist (List.filter_sublist _),
          fun e he => h3 e (List.mem_of_mem_filter he), h4⟩
      · have hstep : stepQM nw st (.remove q) = st := by
          show (remove_download st q).2.1 = st
          simp only [remove_download]
          rw [if_neg hc]
          cases hf : findActiveDl st q <;> rfl
        rw [hstep]
        exact ⟨h1, h2, h3, h4⟩
  | reconcile g fr =>
      have hact1 : ∀ p ∈ reconcileActive g st.active_downloads,
          p.2.time_added < st.clock := by
        intro p hp
        obtain ⟨q, hq, ht⟩ := reconcileActive_time g _ p hp
        rw [ht]
        exact h4 q hq
      cases hpq : st.pending_queue with
      | nil =>
          have hstep : stepQM nw st (.reconcile g fr) =
              { st with active_downloads :=
                  reconcileActive g st.active_downloads } := by
            show process_queue_iter nw g fr st = _
            simp only [process_queue_iter, hpq]
          rw [hstep]
          dsimp only
          exact ⟨h1, h2, h3, hact1⟩
      | cons e rest =>
          rw [hpq] at h1 h2 h3
          by_cases hlt : (reconcileActive g st.active_downloads).length < nw
          · cases fr with
            | some dl =>
                have hstep : stepQM nw st (.reconcile g (some dl)) =
                    { st with
                        pending_queue := rest,
                        active_downloads :=
                          dictInsert (reconcileActive g st.active_downloads)
                            dl { e with status := .processing },
                        dispatched := st.dispatched ++ [e.qm_id] } := by
                  show process_queue_iter nw g (some dl) st = _
                  simp only [process_queue_iter, hpq]
                  rw [if_pos hlt]
                rw [hstep]
                dsimp only
                refine ⟨h1.of_cons, h2.of_cons,
                  fun x hx => h3 x (List.mem_cons_of_mem e hx), ?_⟩
                intro p hp
                rcases dictInsert_mem _ _ _ p hp with hin | rfl
                · exact hact1 p hin
                · exact h3 e (List.mem_cons_self e rest)
            | none =>
                have hstep : stepQM nw st (.reconcile g none) =
                    { st with
                        pending_queue :=
                          sortQ ({ e with status := .queued } :: rest),
                        active_downloads :=
                          reconcileActive g st.active_downloads } := by
                  show process_queue_iter nw g none st = _
                  simp only [process_queue_iter, hpq]
                  rw [if_pos hlt]
                rw [hstep]
                dsimp only
                refine ⟨sortQ_sorted _, ?_, ?_, hact1⟩
                · refine (List.Perm.pairwise_iff (fun hab => timeNe_symm hab)
                    (sortQ_perm _)).mpr ?_
                  rw [List.pairwise_cons] at h2 ⊢
                  exact ⟨fun b hb => h2.1 b hb, h2.2⟩
                · intro x hx
                  rcases List.mem_cons.mp ((sortQ_perm _).mem_iff.mp hx) with
                    rfl | hxs
                  · exact h3 e (List.mem_cons_self e rest)
                  · exact h3 x (List.mem_cons_of_mem e hxs)
          · have hstep : stepQM nw st (.reconcile g fr) =
                { st with active_downloads :=
                    reconcileActive g st.active_downloads } := by
              show process_queue_iter nw g fr st = _
              simp only [process_queue_iter, hpq]
              rw [if_neg hlt]
            rw [hstep]
            dsimp only
            rw [← hpq] at h1 h2 h3
            exact ⟨h1, h2, h3, hact1⟩

theorem runQM_order_inv (nw : Nat) (ops : List QMOp) :
    (runQM nw ops).pending_queue.Pairwise qle ∧
    (runQM nw ops).pending_queue.Pairwise
      (fun a b => a.time_added ≠ b.time_added) ∧
    (∀ e ∈ (runQM nw ops).pending_queue,
      e.time_added < (runQM nw ops).clock) ∧
    (∀ p ∈ (runQM nw ops).active_downloads,
      p.2.time_added < (runQM nw ops).clock) := by
  have h : ∀ st : QMState,
      st.pending_queue.Pairwise qle →
      st.pending_queue.Pairwise (fun a b => a.time_added ≠ b.time_added) →
      (∀ e ∈ st.pending_queue, e.time_added < st.clock) →
      (∀ p ∈ st.active_downloads, p.2.time_added < st.clock) →
      (ops.foldl (stepQM nw) st).pending_queue.Pairwise qle ∧
      (ops.foldl (stepQM nw) st).pending_queue.Pairwise
        (fun a b => a.time_added ≠ b.time_added) ∧
      (∀ e ∈ (ops.foldl (stepQM nw) st).pending_queue,
        e.time_added < (ops.foldl (stepQM nw) st).clock) ∧
      (∀ p ∈ (ops.foldl (stepQM nw) st).active_downloads,
        p.2.time_added < (ops.foldl (stepQM nw) st).clock) := by
    induction ops with
    | nil => exact fun st a b c d => ⟨a, b, c, d⟩
    | cons op ops ih =>
        intro st a b c d
        obtain ⟨a2, b2, c2, d2⟩ := stepQM_preserves_order nw st op a b c d
        exact ih (stepQM nw st op) a2 b2 c2 d2
  exact h initQM (by simp [initQM]) (by simp [initQM])
    (by simp [initQM]) (by simp [initQM])

/-- Claim C5: after any sequence of operations the backlog is sorted by
`(priority ascending, time-added ascending)` with distinct admission stamps -
so entries with equal priority stand in arrival (FIFO) order and the
dispatch step, which always pops the front of the backlog
(queue_manager.py 99), takes the least entry first.  Concretely, entries
admitted with priorities 2, 0, 1 are dispatched in priority order 0, 1, 2
(qm ids 2, 3, 1). -/
theorem C5_ordering :
    (∀ (nw : Nat) (ops : List QMOp),
      (runQM nw ops).pending_queue.Pairwise
        (fun a b => a.priority < b.priority ∨
          (a.priority = b.priority ∧ a.time_added < b.time_added))) ∧
    (runQM 3 c5ops).dispatched = [2, 3, 1] := by
  constructor
  · intro nw ops
    obtain ⟨hA, hB, _, _⟩ := runQM_order_inv nw ops
    refine (hA.and hB).imp fun hab => ?_
    obtain ⟨hle, hne⟩ := hab
    unfold qle at hle
    omega
  · decide

/-!
Sanitizer lemmas: the strip step is idempotent and the sanitizer output,
when no truncation happened, is a fixed point.
-/

theorem dropWhile_head_false (p : Char → Bool) (l : List Char) (c : Char)
    (h : (l.dropWhile p).head? = some c) : p c = false := by
  induction l with
  | nil => simp [List.dropWhile] at h
  | cons x xs ih =>
      rw [List.dropWhile_cons] at h
      by_cases hx : p x
      · rw [if_pos hx] at h
        exact ih h
      · rw [if_neg hx] at h
        simp only [List.head?_cons, Option.some.injEq] at h
        rw [← h]
        exact Bool.eq_false_iff.mpr hx

theorem getLast_dropWhile_eq (p : Char → Bool) (l : List Char)
    (h : l.dropWhile p ≠ []) : (l.dropWhile p).getLast? = l.getLast? := by
  induction l with
  | nil => simp [List.dropWhile] at h
  | cons x xs ih =>
      rw [List.dropWhile_cons] at h ⊢
      by_cases hx : p x
      · rw [if_pos hx] at h ⊢
        have hxs : xs ≠ [] := by
          intro he
          rw [he] at h
          simp [List.dropWhile] at h
        cases xs with
        | nil => exact absurd rfl hxs
        | cons y ys =>
            rw [List.getLast?_cons_cons]
            exact ih h
      · rw [if_neg hx]

theorem dropWhile_eq_self_of_head (p : Char → Bool) (l : List Char)
    (h : ∀ c, l.head? = some c → p c = false) : l.dropWhile p = l := by
  cases l with
  | nil => rfl
  | cons x xs =>
      rw [List.dropWhile_cons, if_neg]
      intro hx
      have := h x rfl
      rw [this] at hx
      cases hx

theorem stripChars_head_false (l : List Char) (c : Char)
    (h : (stripChars l).head? = some c) : isStripChar c = false := by
  unfold stripChars at h
  rw [List.head?_reverse] at h
  have hne : (l.dropWhile isStripChar).reverse.dropWhile isStripChar ≠ [] := by
    intro he
    rw [he] at h
    cases h
  rw [getLast_dropWhile_eq _ _ hne, List.getLast?_reverse] at h
  exact dropWhile_head_false _ _ _ h

theorem stripChars_getLast_false (l : List Char) (c : Char)
    (h : (stripChars l).getLast? = some c) : isStripChar c = false := by
  unfold stripChars at h
  rw [List.getLast?_reverse] at h
  exact dropWhile_head_false _ _ _ h

theorem stripChars_idem (l : List Char) :
    stripChars (stripChars l) = stripChars l := by
  have h1 : (stripChars l).dropWhile isStripChar = stripChars l :=
    dropWhile_eq_self_of_head _ _ (fun c hc => stripChars_head_false l c hc)
  show (((stripChars l).dropWhile isStripChar).reverse.dropWhile
      isStripChar).reverse = stripChars l
  rw [h1]
  have h2 : (stripChars l).reverse.dropWhile isStripChar =
      (stripChars l).reverse := by
    refine dropWhile_eq_self_of_head _ _ (fun c hc => ?_)
    rw [List.head?_reverse] at hc
    exact stripChars_getLast_false l c hc
  rw [h2, List.reverse_reverse]

theorem mem_stripChars (l : List Char) (c : Char) (h : c ∈ stripChars l) :
    c ∈ l := by
  unfold stripChars at h
  rw [List.mem_reverse] at h
  have h2 := (List.dropWhile_sublist _).mem h
  rw [List.mem_reverse] at h2
  exact (List.dropWhile_sublist _).mem h2

theorem mem_sanitizeJoin (l : List Char) (c : Char) (h : c ∈ sanitizeJoin l) :
    allowedChar c = true := by
  unfold sanitizeJoin at h
  obtain ⟨d, _, hd⟩ := List.mem_map.mp h
  by_cases hall : allowedChar d
  · rw [if_pos hall] at hd
    rw [← hd]
    exact hall
  · rw [if_neg hall] at hd
    rw [← hd]
    rfl

theorem sanitizeJoin_fixed (l : List Char)
    (h : ∀ c ∈ l, allowedChar c = true) : sanitizeJoin l = l := by
  unfold sanitizeJoin
  induction l with
  | nil => rfl
  | cons x xs ih =>
      rw [List.map_cons]
      rw [if_pos (h x (List.mem_cons_self x xs))]
      rw [ih (fun c hc => h c (List.mem_cons_of_mem x hc))]

theorem sanitizeCore_ne_nil (l : List Char) : sanitizeCore l ≠ [] := by
  unfold sanitizeCore
  split
  · decide
  · assumption

theorem sanitizeCore_allowed (l : List Char) :
    ∀ c ∈ sanitizeCore l, allowedChar c = true := by
  unfold sanitizeCore
  split
  · decide
  · exact fun c hc => mem_sanitizeJoin l c (mem_stripChars _ c hc)

theorem sanitizeCore_strip (l : List Char) :
    stripChars (sanitizeCore l) = sanitizeCore l := by
  unfold sanitizeCore
  split
  · decide
  · exact stripChars_idem _

theorem truncateName_eq_self (s : List Char) (h : s.length ≤ 200) :
    truncateName s = s := by
  unfold truncateName
  rw [if_neg]
  omega

theorem sanitizeCore_of_fixed (m : List Char)
    (h1 : stripChars (sanitizeJoin m) = m) (h2 : m ≠ []) :
    sanitizeCore m = m := by
  unfold sanitizeCore
  rw [h1, if_neg h2]

theorem sanitizeFilename_fixed_of_short (f : List Char)
    (h : (sanitizeCore f).length ≤ 200) :
    sanitizeFilename (sanitizeFilename f) = sanitizeFilename f := by
  have h0 : sanitizeFilename f = sanitizeCore f :=
    truncateName_eq_self _ h
  rw [h0]
  show truncateName (sanitizeCore (sanitizeCore f)) = sanitizeCore f
  have hj : sanitizeJoin (sanitizeCore f) = sanitizeCore f :=
    sanitizeJoin_fixed _ (sanitizeCore_allowed f)
  have hcore : sanitizeCore (sanitizeCore f) = sanitizeCore f :=
    sanitizeCore_of_fixed _ (by rw [hj]; exact sanitizeCore_strip f)
      (sanitizeCore_ne_nil f)
  rw [hcore]
  exact truncateName_eq_self _ h

set_option maxRecDepth 8000 in
/-- Claim C9, counterexample: not every non-empty filename produced by
`suggest_filepath` is a fixed point of re-sanitization.  For the filename
`a.` followed by two hundred `b` characters, the truncation step computes a
negative name slice (`200 - 201 - 1`), so the output keeps the over-long
extension and starts with a dot; re-sanitizing strips that leading dot and
truncates, giving a different name. -/
theorem C9_counterexample :
    suggest_filepath_name "http://x/f" (some ("a." ++ String.mk (List.replicate 200 'b'))) ≠ [] ∧
    sanitizeFilename (suggest_filepath_name "http://x/f"
        (some ("a." ++ String.mk (List.replicate 200 'b')))) ≠
      suggest_filepath_name "http://x/f"
        (some ("a." ++ String.mk (List.replicate 200 'b'))) := by
  constructor <;> decide

/-- Claim C9, amended: every filename component output by `suggest_filepath`
whose sanitized-and-stripped core was not truncated (length at most 200) is
non-empty and a fixed point of the sanitization-and-truncation step; an
output that went through truncation need not be. -/
theorem C9_amended (url : String) (fname : Option String)
    (h : (sanitizeCore (chooseName url fname)).length ≤ 200) :
    sanitizeFilename (suggest_filepath_name url fname) =
      suggest_filepath_name url fname ∧
    suggest_filepath_name url fname ≠ [] := by
  refine ⟨sanitizeFilename_fixed_of_short _ h, ?_⟩
  show truncateName (sanitizeCore (chooseName url fname)) ≠ []
  rw [truncateName_eq_self _ h]
  exact sanitizeCore_ne_nil _

/-- Claim C9, witness: a url-derived filename below the truncation bound. -/
theorem C9_witness :
    sanitizeFilename (suggest_filepath_name "http://x/report.pdf" none) =
      suggest_filepath_name "http://x/report.pdf" none ∧
    suggest_filepath_name "http://x/report.pdf" none ≠ [] :=
  C9_amended "http://x/report.pdf" none (by decide)
